import Mathlib

/-
Shallow embedding of the grepr repository (src/lib.rs and src/matcher.rs).

Modelling conventions:
* Rust strings are lists of characters (`Str`).
* A `BufRead` stream is the list of results of its successive `read_line`
  calls: each successful call yields the chunk of text up to and including
  the next line feed (or up to end of stream), a failing call yields an
  I/O error.  The pure chunking of a given in-memory content is
  `splitAfterNewline`.
* A compiled `regex::Regex` is abstracted by the two operations lib.rs
  applies to it (`is_match` and `replace_all` with a red closure); the
  regex engine of matcher.rs is modelled on the literal-pattern fragment.
* Terminal colours are the ANSI escape sequences emitted by the colored
  crate (identity colouring is obtained by instantiating `replAllRed`
  accordingly; the red emphasis used by the Display impl is explicit).
* A Rust panic (a failed `unwrap`) is `Except.error ()`.
-/

set_option autoImplicit false

abbrev Str := List Char

/-- ANSI escape sequence that opens red emphasis, as emitted by red() of the colored crate. -/
def ansiRed : Str := ['\x1b', '[', '3', '1', 'm']

/-- ANSI escape sequence that closes an emphasis. -/
def ansiReset : Str := ['\x1b', '[', '0', 'm']

/-- Red emphasis of a word, as produced by red() of the colored crate. -/
def red (s : Str) : Str := ansiRed ++ s ++ ansiReset

/-- Decimal representation of a number, as ToString of usize renders it. -/
def natStr (n : Nat) : Str := (Nat.repr n).data

/-- litPrefix w s holds when w is a leading segment of s (the starts-with
test that the literal matcher model is built on). -/
def litPrefix : Str → Str → Bool
  | [], _ => true
  | _ :: _, [] => false
  | a :: w, b :: s => a == b && litPrefix w s

/-- Whether the literal word w occurs anywhere inside s; this is what
is_match of a compiled literal pattern reports. -/
def litIsMatch (w s : Str) : Bool :=
  (List.range (s.length + 1)).any (fun i => litPrefix w (s.drop i))

/- ===================== src/lib.rs ===================== -/

/-- A compiled regex::Regex as used by lib.rs, abstracted by the two
operations applied to it: the boolean match test and replace_all with the
red-emphasis closure of highlight_all_matches_red. -/
structure RegexM where
  isMatch : Str → Bool
  replAllRed : Str → Str

/-- MatchedLine of src/lib.rs: a 1-based line number and the (formatted)
content of the line. -/
structure MatchedLine where
  line : Nat
  content : Str
deriving DecidableEq

/-- The keep decision of the scanner loop in find_lines_and_fmt_with:
pattern.is_match(line) XOR invert_match. -/
def keepLine (pattern : RegexM) (invert_match : Bool) (line : Str) : Bool :=
  Bool.xor (pattern.isMatch line) invert_match

/-- The chunks successive read_line calls produce on an in-memory content:
each chunk extends up to and including a line feed, the final chunk may
lack the terminator; empty content yields no chunk at all. -/
def splitAfterNewline : Str → List Str
  | [] => []
  | c :: rest =>
    if c = '\n' then [c] :: splitAfterNewline rest
    else
      match splitAfterNewline rest with
      | [] => [[c]]
      | l :: ls => (c :: l) :: ls

/-- The read_line loop of find_lines_and_fmt_with (src/lib.rs 117-137)
with the running line counter made explicit: reads is the sequence of
read_line results; a failing read propagates the I/O error through the
question-mark operator, dropping every line collected so far. -/
def findLinesAux (reads : List (Except Str Str)) (pattern : RegexM)
    (invert_match : Bool) (fmt_strategy : RegexM → Str → Str)
    (line_num : Nat) : Except Str (List MatchedLine) :=
  match reads with
  | [] => Except.ok []
  | Except.error e :: _ => Except.error e
  | Except.ok line :: rest =>
    match findLinesAux rest pattern invert_match fmt_strategy (line_num + 1) with
    | Except.error e => Except.error e
    | Except.ok tail =>
      Except.ok (if keepLine pattern invert_match line then
        MatchedLine.mk (line_num + 1) (fmt_strategy pattern line) :: tail
      else tail)

/-- find_lines_and_fmt_with of src/lib.rs, starting from line counter 0. -/
def find_lines_and_fmt_with (reads : List (Except Str Str)) (pattern : RegexM)
    (invert_match : Bool) (fmt_strategy : RegexM → Str → Str) :
    Except Str (List MatchedLine) :=
  findLinesAux reads pattern invert_match fmt_strategy 0

/-- default_fmt_strategy of src/lib.rs: the line is stored unchanged. -/
def default_fmt_strategy (_pattern : RegexM) (line : Str) : Str := line

/-- highlight_all_matches_red of src/lib.rs: replace_all with a closure
wrapping each whole match in red. -/
def highlight_all_matches_red (pattern : RegexM) (line : Str) : Str :=
  pattern.replAllRed line

/-- find_lines_with_highlight_all_matches_red of src/lib.rs. -/
def find_lines_with_highlight_all_matches_red (reads : List (Except Str Str))
    (pattern : RegexM) (invert_match : Bool) : Except Str (List MatchedLine) :=
  find_lines_and_fmt_with reads pattern invert_match highlight_all_matches_red

/-- Right-justification to width 6, as the format spec of the MatchedLine
Display impl applies to the line number. -/
def padTo6 (s : Str) : Str := List.replicate (6 - s.length) ' ' ++ s

/-- Display of MatchedLine (src/lib.rs 111-115): the cyan line number
right-justified to width 6, a colon, then the content (the cyan colouring
is the identity here, as when stdout is not a terminal). -/
def fmtMatchedLine (ml : MatchedLine) : Str :=
  padTo6 (natStr ml.line) ++ ':' :: ml.content

/-- An output event of a run: out is one print to stdout, errOut one
eprintln to stderr; each event carries the full printed text and println
events include their trailing line feed. -/
inductive OutEvent where
  | out (s : Str)
  | errOut (s : Str)
deriving DecidableEq

/-- One Ok entry of the find_files result together with what opening and
then reading it yields: openRes is either the open error or the sequence
of read_line results of the opened stream. -/
structure SourceFile where
  name : Str
  openRes : Except Str (List (Except Str Str))

/-- The per-entry loop of run (src/lib.rs 167-211).  entries is the
find_files output (an Err entry is a source-resolution failure), multi is
the entries.len() > 1 test computed once for the whole run.  The green and
cyan colourings are identities, as when stdout is not a terminal.  A read
error inside find_lines propagates through the question-mark operator and
ends the whole run with that error. -/
def runLoop (entries : List (Except Str SourceFile)) (pattern : RegexM)
    (count invert_match multi : Bool) : List OutEvent × Except Str Unit :=
  match entries with
  | [] => ([], Except.ok ())
  | Except.error e :: rest =>
    let r := runLoop rest pattern count invert_match multi
    (OutEvent.errOut (e ++ ['\n']) :: r.1, r.2)
  | Except.ok f :: rest =>
    match f.openRes with
    | Except.error err =>
      let r := runLoop rest pattern count invert_match multi
      (OutEvent.errOut (f.name ++ ':' :: ' ' :: err ++ ['\n']) :: r.1, r.2)
    | Except.ok reads =>
      match find_lines_with_highlight_all_matches_red reads pattern invert_match with
      | Except.error e => ([], Except.error e)
      | Except.ok ms =>
        let here :=
          if multi then
            if count then [OutEvent.out (f.name ++ ':' :: natStr ms.length ++ ['\n'])]
            else (if ms.length > 0 then [OutEvent.out (f.name ++ ['\n'])] else []) ++
              ms.map (fun ml => OutEvent.out (fmtMatchedLine ml))
          else
            if count then [OutEvent.out (natStr ms.length ++ ['\n'])]
            else ms.map (fun ml => OutEvent.out (fmtMatchedLine ml))
        let r := runLoop rest pattern count invert_match multi
        (here ++ r.1, r.2)

/-- run of src/lib.rs, starting from the already-resolved entries list
(find_files itself walks the file system and is modelled by its output):
the output mode flag is entries.len() > 1, computed once per run. -/
def runEntries (entries : List (Except Str SourceFile)) (pattern : RegexM)
    (count invert_match : Bool) : List OutEvent × Except Str Unit :=
  runLoop entries pattern count invert_match (decide (entries.length > 1))

/-- Pairs every element of a list with its index, counting from k. -/
def withIdxFrom {α : Type} (k : Nat) : List α → List (Nat × α)
  | [] => []
  | a :: as => (k, a) :: withIdxFrom (k + 1) as

/-- The line numbers the scanner reports on a given content (with the
default formatting strategy). -/
def keptLines (content : Str) (pattern : RegexM) (invert_match : Bool) : List Nat :=
  match find_lines_and_fmt_with ((splitAfterNewline content).map Except.ok)
      pattern invert_match default_fmt_strategy with
  | Except.ok ms => ms.map MatchedLine.line
  | Except.error _ => []

/-- The matched lines run obtains on an error-free source with the given
content (equal to the scanner output along the run path, see
findLinesAux_map_ok). -/
def pureMatches (pattern : RegexM) (invert_match : Bool) (content : Str) :
    List MatchedLine :=
  ((withIdxFrom 1 (splitAfterNewline content)).filter
      (fun q => keepLine pattern invert_match q.2)).map
    (fun q => MatchedLine.mk q.1 (highlight_all_matches_red pattern q.2))

/-- A find_files entry that resolves, opens and reads without error, whose
stream holds the given content. -/
def pureSource (name content : Str) : Except Str SourceFile :=
  Except.ok (SourceFile.mk name (Except.ok ((splitAfterNewline content).map Except.ok)))

/-- The block of output run prints for one error-free source, as a function
of the count flag, the invert flag and the multi-source mode. -/
def perSourceOut (pattern : RegexM) (count invert_match multi : Bool)
    (q : Str × Str) : List OutEvent :=
  let ms := pureMatches pattern invert_match q.2
  if multi then
    if count then [OutEvent.out (q.1 ++ ':' :: natStr ms.length ++ ['\n'])]
    else (if ms.length > 0 then [OutEvent.out (q.1 ++ ['\n'])] else []) ++
      ms.map (fun ml => OutEvent.out (fmtMatchedLine ml))
  else
    if count then [OutEvent.out (natStr ms.length ++ ['\n'])]
    else ms.map (fun ml => OutEvent.out (fmtMatchedLine ml))

/-- Whether an entry fails before any line is scanned: a source-resolution
error or an open error. -/
def entryFails : Except Str SourceFile → Bool
  | Except.error _ => true
  | Except.ok f =>
    match f.openRes with
    | Except.error _ => true
    | Except.ok _ => false

/- ===================== src/matcher.rs ===================== -/

/-- MatchWord of src/matcher.rs: the 0-based start offset of one occurrence
and the exact substring matched. -/
structure MatchWord where
  col : Nat
  word : Str
deriving DecidableEq

/-- MatchLine of src/matcher.rs: the 0-based row, the line content and the
occurrences found in it. -/
structure MatchLineM where
  row : Nat
  content : Str
  match_words : List MatchWord

/-- Patterns of the modelled regex fragment: lit w is a pattern without
metacharacters, matching exactly the literal word w; lparen is the pattern
consisting of a single opening parenthesis, which the regex engine rejects
at compilation. -/
inductive Pat where
  | lit (w : Str)
  | lparen

/-- Regex::new on the modelled fragment: a literal pattern compiles to its
word, the unmatched parenthesis fails to parse. -/
def regexNew : Pat → Option Str
  | Pat.lit w => some w
  | Pat.lparen => none

/-- The find-all-non-overlapping scan of captures_iter for a literal word,
walking the text left to right: pos is the absolute position of the head
of s, k the number of characters of the previous match still to pass over
before searching may resume.  A zero-length match advances the scan by one
character before searching again. -/
def findAllGo (w : Str) : Str → Nat → Nat → List MatchWord
  | [], pos, k =>
    if k = 0 then (if litPrefix w [] then [MatchWord.mk pos w] else []) else []
  | c :: rest, pos, k =>
    if k ≠ 0 then findAllGo w rest (pos + 1) (k - 1)
    else if litPrefix w (c :: rest) then
      if w.isEmpty then MatchWord.mk pos w :: findAllGo w rest (pos + 1) 0
      else MatchWord.mk pos w :: findAllGo w rest (pos + 1) (w.length - 1)
    else findAllGo w rest (pos + 1) 0

/-- All non-overlapping occurrences of the literal word w in s, leftmost
first: the sequence captures_iter yields. -/
def findAll (w s : Str) : List MatchWord := findAllGo w s 0 0

/-- The captures_iter collection plus emptiness test inside
match_pattern_line: None when the line holds no occurrence. -/
def matchWordsOpt (w content : Str) : Option (List MatchWord) :=
  let ws := findAll w content
  if ws.isEmpty then none else some ws

/-- match_pattern_line of src/matcher.rs 64-77: the pattern string is
recompiled on every call and the result unwrapped; the unwrap of a failed
compilation is a panic, modelled as Except.error (). -/
def match_pattern_line (content : Str) (pattern : Pat) :
    Except Unit (Option (List MatchWord)) :=
  match regexNew pattern with
  | none => Except.error ()
  | some w => Except.ok (matchWordsOpt w content)

/-- One trailing line terminator stripped from a chunk, the way the lines
iterator of str does it: a trailing line feed is removed and, only when it
was present, a carriage return directly before it. -/
def stripTerm (c : Str) : Str :=
  if c.getLast? = some '\n' then
    let c2 := c.dropLast
    if c2.getLast? = some '\r' then c2.dropLast else c2
  else c

/-- The lines iterator of str: the inclusive chunks with their terminators
stripped. -/
def rustLines (s : Str) : List Str := (splitAfterNewline s).map stripTerm

/-- The enumerate plus filter_map loop of match_pattern, with panic
propagation from the per-line calls. -/
def matchLinesAux (pattern : Pat) : List (Nat × Str) → Except Unit (List MatchLineM)
  | [] => Except.ok []
  | (row, line) :: rest =>
    match match_pattern_line line pattern with
    | Except.error e => Except.error e
    | Except.ok mw =>
      match matchLinesAux pattern rest with
      | Except.error e => Except.error e
      | Except.ok tail =>
        Except.ok (match mw with
          | none => tail
          | some ws => MatchLineM.mk row line ws :: tail)

/-- match_pattern of src/matcher.rs 46-62: run match_pattern_line over the
enumerated lines of the content, None when no line matched. -/
def match_pattern (content : Str) (pattern : Pat) :
    Except Unit (Option (List MatchLineM)) :=
  match matchLinesAux pattern (withIdxFrom 0 (rustLines content)) with
  | Except.error e => Except.error e
  | Except.ok mls => Except.ok (if mls.isEmpty then none else some mls)

/-- Whether a panic-modelling result is the panic. -/
def panicked {α : Type} : Except Unit α → Bool
  | Except.error _ => true
  | Except.ok _ => false

/-- The replace method of str for a literal needle w and replacement r,
with the same scan discipline as findAllGo: matched characters are
replaced by r, a zero-length needle inserts r at every boundary. -/
def rustReplaceGo (w r : Str) : Str → Nat → Str
  | [], k => if k = 0 then (if litPrefix w [] then r else []) else []
  | c :: rest, k =>
    if k ≠ 0 then rustReplaceGo w r rest (k - 1)
    else if litPrefix w (c :: rest) then
      if w.isEmpty then r ++ c :: rustReplaceGo w r rest 0
      else r ++ rustReplaceGo w r rest (w.length - 1)
    else c :: rustReplaceGo w r rest 0

/-- s.replace(w, r) of Rust str. -/
def rustReplace (s w r : Str) : Str := rustReplaceGo w r s 0

/-- The highlighting loop of the MatchLine Display impl
(src/matcher.rs 93-97): words is the HashSet of distinct matched
substrings in its iteration order; every iteration assigns
content = self.content.replace(word, red word), restarting from the
original content, and the accumulator starts as the empty string. -/
def matchLineRender (content : Str) (words : List Str) : Str :=
  words.foldl (fun _ w => rustReplace content w (red w)) []

/- ===================== concrete instances ===================== -/

/-- A compiled pattern that matches every line, with identity colouring. -/
def patTrue : RegexM := RegexM.mk (fun _ => true) (fun s => s)

/-- A compiled pattern whose match test is satisfied exactly by text
containing a line feed (the regex consisting of a line feed). -/
def patNl : RegexM := RegexM.mk (fun s => s.contains '\n') (fun s => s)

/-- A compiled pattern matching text that contains the letter a, with
identity colouring. -/
def patA : RegexM := RegexM.mk (fun s => s.contains 'a') (fun s => s)

/- ===================== helper lemmas ===================== -/

theorem litPrefix_iff (w : Str) : ∀ s : Str, litPrefix w s = true ↔ ∃ t, s = w ++ t := by
  induction w with
  | nil => intro s; simp [litPrefix]
  | cons a w ih =>
    intro s
    cases s with
    | nil => simp [litPrefix]
    | cons b s =>
      simp only [litPrefix, Bool.and_eq_true, beq_iff_eq, ih, List.cons_append,
        List.cons.injEq]
      constructor
      · rintro ⟨rfl, t, rfl⟩
        exact ⟨t, rfl, rfl⟩
      · rintro ⟨t, rfl, rfl⟩
        exact ⟨rfl, t, rfl⟩

theorem litPrefix_nil_right (w : Str) : litPrefix w [] = true ↔ w = [] := by
  cases w <;> simp [litPrefix]

theorem splitAfterNewline_eq_nil (s : Str) : splitAfterNewline s = [] ↔ s = [] := by
  cases s with
  | nil => simp [splitAfterNewline]
  | cons c rest =>
    by_cases hc : c = '\n'
    · simp [splitAfterNewline, hc]
    · cases h : splitAfterNewline rest with
      | nil => simp [splitAfterNewline, hc, h]
      | cons l ls => simp [splitAfterNewline, hc, h]

theorem splitAfterNewline_join (s : Str) : (splitAfterNewline s).flatten = s := by
  induction s with
  | nil => rfl
  | cons c rest ih =>
    by_cases hc : c = '\n'
    · simp [splitAfterNewline, hc, ih]
    · cases h : splitAfterNewline rest with
      | nil =>
        have hr : rest = [] := (splitAfterNewline_eq_nil rest).mp h
        simp [splitAfterNewline, hc, h, hr]
      | cons l ls =>
        rw [h] at ih
        simp only [splitAfterNewline, if_neg hc, h, List.flatten_cons, List.cons_append]
        simp only [List.flatten_cons] at ih
        rw [ih]

theorem splitAfterNewline_ne_nil (s : Str) : ∀ c ∈ splitAfterNewline s, c ≠ [] := by
  induction s with
  | nil => simp [splitAfterNewline]
  | cons c rest ih =>
    by_cases hc : c = '\n'
    · intro d hd
      rw [splitAfterNewline, if_pos hc] at hd
      rcases List.mem_cons.mp hd with rfl | hd
      · simp
      · exact ih d hd
    · cases h : splitAfterNewline rest with
      | nil =>
        intro d hd
        rw [splitAfterNewline, if_neg hc, h] at hd
        rcases List.mem_cons.mp hd with rfl | hd
        · simp
        · simp at hd
      | cons l ls =>
        intro d hd
        rw [splitAfterNewline, if_neg hc, h] at hd
        rcases List.mem_cons.mp hd with rfl | hd
        · simp
        · exact ih d (by rw [h]; exact List.mem_cons_of_mem l hd)

theorem splitAfterNewline_dropLast (s : Str) :
    ∀ c ∈ splitAfterNewline s, ∀ x ∈ c.dropLast, x ≠ '\n' := by
  induction s with
  | nil => simp [splitAfterNewline]
  | cons c rest ih =>
    by_cases hc : c = '\n'
    · intro d hd
      rw [splitAfterNewline, if_pos hc] at hd
      rcases List.mem_cons.mp hd with rfl | hd
      · simp
      · exact ih d hd
    · cases h : splitAfterNewline rest with
      | nil =>
        intro d hd
        rw [splitAfterNewline, if_neg hc, h] at hd
        rcases List.mem_cons.mp hd with rfl | hd
        · simp
        · simp at hd
      | cons l ls =>
        intro d hd
        rw [splitAfterNewline, if_neg hc, h] at hd
        rcases List.mem_cons.mp hd with rfl | hd
        · cases l with
          | nil => simp
          | cons y l2 =>
            intro x hx
            have hdl : (c :: y :: l2).dropLast = c :: (y :: l2).dropLast := rfl
            rw [hdl] at hx
            rcases List.mem_cons.mp hx with rfl | hx
            · exact hc
            · exact ih (y :: l2) (by rw [h]; exact List.mem_cons_self _ _) x hx
        · exact ih d (by rw [h]; exact List.mem_cons_of_mem l hd)

theorem splitAfterNewline_newline_last (s : Str) :
    ∀ c ∈ splitAfterNewline s, '\n' ∈ c → c.getLast? = some '\n' := by
  intro c hc hmem
  have hne : c ≠ [] := splitAfterNewline_ne_nil s c hc
  have hdl := splitAfterNewline_dropLast s c hc
  have hsplit : c.dropLast ++ [c.getLast hne] = c := List.dropLast_append_getLast hne
  rcases List.mem_append.mp (by rw [hsplit]; exact hmem) with h1 | h1
  · exact absurd rfl (hdl _ h1)
  · have hx : c.getLast hne = '\n' := by
      have := List.mem_singleton.mp h1
      exact this.symm
    rw [List.getLast?_eq_getLast c hne, hx]

theorem rustLines_no_newline (s : Str) : ∀ l ∈ rustLines s, '\n' ∉ l := by
  intro l hl
  rcases List.mem_map.mp hl with ⟨c, hc, rfl⟩
  intro hmem
  simp only [stripTerm] at hmem
  by_cases h1 : c.getLast? = some '\n'
  · rw [if_pos h1] at hmem
    have hdl : '\n' ∉ c.dropLast := by
      intro hx
      exact (splitAfterNewline_dropLast s c hc '\n' hx) rfl
    by_cases h2 : c.dropLast.getLast? = some '\r'
    · rw [if_pos h2] at hmem
      exact hdl (List.dropLast_subset _ hmem)
    · rw [if_neg h2] at hmem
      exact hdl hmem
  · rw [if_neg h1] at hmem
    exact h1 (splitAfterNewline_newline_last s c hc hmem)

theorem mem_withIdxFrom {α : Type} (l : List α) :
    ∀ (k i : Nat) (x : α), (i, x) ∈ withIdxFrom k l ↔
      ∃ j, i = k + j ∧ l.get? j = some x := by
  induction l with
  | nil => intro k i x; simp [withIdxFrom]
  | cons a as ih =>
    intro k i x
    simp only [withIdxFrom, List.mem_cons, Prod.mk.injEq, ih]
    constructor
    · rintro (⟨rfl, rfl⟩ | ⟨j, rfl, h3⟩)
      · exact ⟨0, by omega, by simp⟩
      · exact ⟨j + 1, by omega, by simpa using h3⟩
    · rintro ⟨j, rfl, h3⟩
      cases j with
      | zero =>
        left
        simp only [List.get?_cons_zero, Option.some.injEq] at h3
        exact ⟨by omega, h3.symm⟩
      | succ j =>
        right
        refine ⟨j, by omega, ?_⟩
        simpa using h3

theorem findLinesAux_map_ok (chunks : List Str) (pattern : RegexM)
    (invert_match : Bool) (fmt : RegexM → Str → Str) :
    ∀ k, findLinesAux (chunks.map Except.ok) pattern invert_match fmt k =
      Except.ok (((withIdxFrom (k + 1) chunks).filter
          (fun q => keepLine pattern invert_match q.2)).map
        (fun q => MatchedLine.mk q.1 (fmt pattern q.2))) := by
  induction chunks with
  | nil => intro k; rfl
  | cons c cs ih =>
    intro k
    simp only [List.map_cons, findLinesAux, ih (k + 1), withIdxFrom, List.filter_cons]
    cases hk : keepLine pattern invert_match c <;> simp [hk]

theorem findAllGo_sound (w : Str) : ∀ (s : Str) (pos k : Nat),
    ∀ mw ∈ findAllGo w s pos k,
      mw.word = w ∧ pos + k ≤ mw.col ∧ mw.col - pos ≤ s.length ∧
        litPrefix w (s.drop (mw.col - pos)) = true := by
  intro s
  induction s with
  | nil =>
    intro pos k mw hmw
    simp only [findAllGo] at hmw
    split_ifs at hmw with h1 h2
    · rcases List.mem_singleton.mp hmw with rfl
      subst h1
      exact ⟨rfl, by simp, by simp, by simpa using h2⟩
    · simp at hmw
    · simp at hmw
  | cons c rest ih =>
    intro pos k mw hmw
    simp only [findAllGo] at hmw
    split_ifs at hmw with h1 h2 h3
    · obtain ⟨hw, hcol, hlen, hpref⟩ := ih (pos + 1) (k - 1) mw hmw
      refine ⟨hw, by omega, by simp; omega, ?_⟩
      have hshift : mw.col - pos = (mw.col - (pos + 1)) + 1 := by omega
      rw [hshift]
      simpa using hpref
    · push_neg at h1
      subst h1
      rcases List.mem_cons.mp hmw with rfl | hmw2
      · exact ⟨rfl, by simp, by simp, by simpa using h2⟩
      · obtain ⟨hw, hcol, hlen, hpref⟩ := ih (pos + 1) 0 mw hmw2
        refine ⟨hw, by omega, by simp; omega, ?_⟩
        have hshift : mw.col - pos = (mw.col - (pos + 1)) + 1 := by omega
        rw [hshift]
        simpa using hpref
    · push_neg at h1
      subst h1
      rcases List.mem_cons.mp hmw with rfl | hmw2
      · exact ⟨rfl, by simp, by simp, by simpa using h2⟩
      · obtain ⟨hw, hcol, hlen, hpref⟩ := ih (pos + 1) (w.length - 1) mw hmw2
        refine ⟨hw, by omega, by simp; omega, ?_⟩
        have hshift : mw.col - pos = (mw.col - (pos + 1)) + 1 := by omega
        rw [hshift]
        simpa using hpref
    · push_neg at h1
      subst h1
      obtain ⟨hw, hcol, hlen, hpref⟩ := ih (pos + 1) 0 mw hmw
      refine ⟨hw, by omega, by simp; omega, ?_⟩
      have hshift : mw.col - pos = (mw.col - (pos + 1)) + 1 := by omega
      rw [hshift]
      simpa using hpref

theorem findAllGo_pairwise (w : Str) : ∀ (s : Str) (pos k : Nat),
    List.Pairwise (fun a b => a.col < b.col) (findAllGo w s pos k) := by
  intro s
  induction s with
  | nil =>
    intro pos k
    simp only [findAllGo]
    split_ifs <;> simp
  | cons c rest ih =>
    intro pos k
    simp only [findAllGo]
    split_ifs with h1 h2 h3
    · exact ih (pos + 1) (k - 1)
    · refine List.pairwise_cons.mpr ⟨?_, ih (pos + 1) 0⟩
      intro b hb
      have hcol := (findAllGo_sound w rest (pos + 1) 0 b hb).2.1
      simp only []
      omega
    · refine List.pairwise_cons.mpr ⟨?_, ih (pos + 1) (w.length - 1)⟩
      intro b hb
      have hcol := (findAllGo_sound w rest (pos + 1) (w.length - 1) b hb).2.1
      simp only []
      omega
    · exact ih (pos + 1) 0

theorem findAllGo_nil_length : ∀ (s : Str) (pos : Nat),
    (findAllGo [] s pos 0).length = s.length + 1 := by
  intro s
  induction s with
  | nil => intro pos; simp [findAllGo, litPrefix]
  | cons c rest ih =>
    intro pos
    simp [findAllGo, litPrefix, ih]

theorem findAllGo_length_le (w : Str) : ∀ (s : Str) (pos k : Nat),
    (findAllGo w s pos k).length ≤ s.length + 1 := by
  intro s
  induction s with
  | nil =>
    intro pos k
    simp only [findAllGo]
    split_ifs <;> simp
  | cons c rest ih =>
    intro pos k
    simp only [findAllGo]
    split_ifs with h1 h2 h3
    · have := ih (pos + 1) (k - 1)
      simp only [List.length_cons] at *
      omega
    · have := ih (pos + 1) 0
      simp only [List.length_cons] at *
      omega
    · have := ih (pos + 1) (w.length - 1)
      simp only [List.length_cons] at *
      omega
    · have := ih (pos + 1) 0
      simp only [List.length_cons] at *
      omega

theorem findAllGo_complete (w : Str) : ∀ (s : Str) (pos k d : Nat),
    k ≤ d → d ≤ s.length → litPrefix w (s.drop d) = true →
    ∃ mw ∈ findAllGo w s pos k,
      mw.col ≤ pos + d ∧ pos + d < mw.col + max w.length 1 := by
  intro s
  induction s with
  | nil =>
    intro pos k d hkd hd hp
    have hd0 : d = 0 := by simpa using hd
    subst hd0
    have hk0 : k = 0 := by omega
    subst hk0
    rw [List.drop_nil] at hp
    have hw : w = [] := (litPrefix_nil_right w).mp hp
    subst hw
    refine ⟨MatchWord.mk pos [], ?_, by simp, by simp⟩
    simp [findAllGo, litPrefix]
  | cons c rest ih =>
    intro pos k d hkd hd hp
    simp only [findAllGo]
    split_ifs with h1 h2 h3
    · have hd1 : 1 ≤ d := by omega
      have hdrop : (c :: rest).drop d = rest.drop (d - 1) := by
        cases d with
        | zero => omega
        | succ m => simp
      rw [hdrop] at hp
      obtain ⟨mw, hmem, hle, hlt⟩ := ih (pos + 1) (k - 1) (d - 1) (by omega)
        (by simp at hd; omega) hp
      exact ⟨mw, hmem, by omega, by omega⟩
    · push_neg at h1
      rcases Nat.eq_zero_or_pos d with rfl | hdpos
      · refine ⟨MatchWord.mk pos w, List.mem_cons_self _ _, by simp, ?_⟩
        have hw0 : w.length = 0 := by simpa [List.isEmpty_iff_length_eq_zero] using h3
        simp [hw0]
      · have hdrop : (c :: rest).drop d = rest.drop (d - 1) := by
          cases d with
          | zero => omega
          | succ m => simp
        rw [hdrop] at hp
        obtain ⟨mw, hmem, hle, hlt⟩ := ih (pos + 1) 0 (d - 1) (by omega)
          (by simp at hd; omega) hp
        exact ⟨mw, List.mem_cons_of_mem _ hmem, by omega, by omega⟩
    · push_neg at h1
      have hwlen : 1 ≤ w.length := by
        cases w with
        | nil => simp at h3
        | cons _ _ => simp
      rcases Nat.lt_or_ge d w.length with hlt | hge
      · refine ⟨MatchWord.mk pos w, List.mem_cons_self _ _, by simp, ?_⟩
        have hmax : max w.length 1 = w.length := Nat.max_eq_left hwlen
        simp only [hmax]
        omega
      · have hd1 : 1 ≤ d := by omega
        have hdrop : (c :: rest).drop d = rest.drop (d - 1) := by
          cases d with
          | zero => omega
          | succ m => simp
        rw [hdrop] at hp
        obtain ⟨mw, hmem, hle, hlt2⟩ := ih (pos + 1) (w.length - 1) (d - 1)
          (by omega) (by simp at hd; omega) hp
        exact ⟨mw, List.mem_cons_of_mem _ hmem, by omega, by omega⟩
    · push_neg at h1
      rcases Nat.eq_zero_or_pos d with rfl | hdpos
      · rw [List.drop_zero] at hp
        exact absurd hp (by simpa using h2)
      · have hdrop : (c :: rest).drop d = rest.drop (d - 1) := by
          cases d with
          | zero => omega
          | succ m => simp
        rw [hdrop] at hp
        obtain ⟨mw, hmem, hle, hlt⟩ := ih (pos + 1) 0 (d - 1) (by omega)
          (by simp at hd; omega) hp
        exact ⟨mw, hmem, by omega, by omega⟩

theorem findAll_ne_nil_iff (w s : Str) : findAll w s ≠ [] ↔ litIsMatch w s = true := by
  constructor
  · intro hne
    cases hfa : findAll w s with
    | nil => exact absurd hfa hne
    | cons mw tl =>
      have hmem : mw ∈ findAll w s := by
        rw [hfa]
        exact List.mem_cons_self _ _
      obtain ⟨_, _, hcol, hpref⟩ := findAllGo_sound w s 0 0 mw hmem
      unfold litIsMatch
      rw [List.any_eq_true]
      refine ⟨mw.col, ?_, by simpa using hpref⟩
      rw [List.mem_range]
      omega
  · intro him
    unfold litIsMatch at him
    rw [List.any_eq_true] at him
    obtain ⟨d, hdmem, hp⟩ := him
    rw [List.mem_range] at hdmem
    obtain ⟨mw, hmem, _, _⟩ := findAllGo_complete w s 0 0 d (by omega) (by omega) hp
    intro hnil
    unfold findAll at hnil
    rw [hnil] at hmem
    exact List.not_mem_nil _ hmem

theorem findHighlight_pure (pattern : RegexM) (invert_match : Bool) (content : Str) :
    find_lines_with_highlight_all_matches_red ((splitAfterNewline content).map Except.ok)
      pattern invert_match = Except.ok (pureMatches pattern invert_match content) := by
  unfold find_lines_with_highlight_all_matches_red find_lines_and_fmt_with pureMatches
  exact findLinesAux_map_ok _ _ _ _ 0

theorem runLoop_pureList (pattern : RegexM) (count invert_match multi : Bool) :
    ∀ srcs : List (Str × Str),
      runLoop (srcs.map (fun q => pureSource q.1 q.2)) pattern count invert_match multi =
        ((srcs.map (perSourceOut pattern count invert_match multi)).flatten,
          Except.ok ()) := by
  intro srcs
  induction srcs with
  | nil => rfl
  | cons q qs ih =>
    have ih2 := ih
    simp only [pureSource] at ih2
    simp only [List.map_cons, List.flatten_cons, pureSource, runLoop,
      findHighlight_pure, ih2, perSourceOut]

theorem runLoop_all_fail (pattern : RegexM) (count invert_match multi : Bool) :
    ∀ entries, (∀ x ∈ entries, entryFails x = true) →
      (runLoop entries pattern count invert_match multi).2 = Except.ok () := by
  intro entries
  induction entries with
  | nil => intro _; rfl
  | cons x rest ih =>
    intro hall
    have hrest := ih (fun y hy => hall y (List.mem_cons_of_mem x hy))
    have hx := hall x (List.mem_cons_self x rest)
    cases x with
    | error e => exact hrest
    | ok f =>
      cases hf : f.openRes with
      | error err =>
        simp only [runLoop, hf]
        exact hrest
      | ok reads =>
        simp [entryFails, hf] at hx

theorem matchLinesAux_ok (pattern : Pat) (w : Str) (hw : regexNew pattern = some w) :
    ∀ pairs : List (Nat × Str), panicked (matchLinesAux pattern pairs) = false := by
  intro pairs
  induction pairs with
  | nil => rfl
  | cons p rest ih =>
    obtain ⟨row, line⟩ := p
    cases hrec : matchLinesAux pattern rest with
    | error e =>
      rw [hrec] at ih
      simp [panicked] at ih
    | ok tail =>
      simp [matchLinesAux, match_pattern_line, hw, hrec, panicked]

theorem withIdxFrom_map_fst {α : Type} : ∀ (l : List α) (k : Nat),
    (withIdxFrom k l).map Prod.fst = List.range' k l.length := by
  intro l
  induction l with
  | nil => intro k; rfl
  | cons a as ih =>
    intro k
    simp only [withIdxFrom, List.map_cons, List.length_cons, List.range'_succ, ih]

theorem flatten_map_singleton {α β : Type} (l : List α) (f : α → β) :
    (l.map (fun x => [f x])).flatten = l.map f := by
  induction l with
  | nil => rfl
  | cons a as ih => simp only [List.map_cons, List.flatten_cons, ih, List.singleton_append]

/- ===================== claims ===================== -/

/-- C5: the keep decision of the line scanner is exactly
pattern.is_match(line) XOR invert: with invert false a line is kept iff the
pattern matches, with invert true iff it does not, so for every line the
keep decisions of the two invert modes are complementary; at scanner level
a line number is reported under invert exactly when it belongs to the
input and is not reported without invert. -/
theorem claim_C5 :
    (∀ (pattern : RegexM) (line : Str),
      keepLine pattern false line = pattern.isMatch line ∧
      keepLine pattern true line = !(pattern.isMatch line) ∧
      keepLine pattern true line = !(keepLine pattern false line)) ∧
    (∀ (content : Str) (pattern : RegexM) (i : Nat),
      i ∈ keptLines content pattern true ↔
        (1 ≤ i ∧ i ≤ (splitAfterNewline content).length ∧
          i ∉ keptLines content pattern false)) := by
  constructor
  · intro pattern line
    cases h : pattern.isMatch line <;> simp [keepLine, h]
  · intro content pattern i
    have hkept : ∀ inv : Bool, keptLines content pattern inv =
        ((withIdxFrom 1 (splitAfterNewline content)).filter
            (fun q => keepLine pattern inv q.2)).map Prod.fst := by
      intro inv
      simp only [keptLines, find_lines_and_fmt_with, findLinesAux_map_ok, List.map_map]
      rfl
    constructor
    · intro hi
      rw [hkept true] at hi
      obtain ⟨q, hq, rfl⟩ := List.mem_map.mp hi
      obtain ⟨hqmem, hqkeep⟩ := List.mem_filter.mp hq
      obtain ⟨j, hj, hget⟩ :=
        (mem_withIdxFrom (splitAfterNewline content) 1 q.1 q.2).mp hqmem
      obtain ⟨hjlt, -⟩ := List.get?_eq_some.mp hget
      refine ⟨by omega, by omega, ?_⟩
      intro hcon
      rw [hkept false] at hcon
      obtain ⟨q', hq', hq'1⟩ := List.mem_map.mp hcon
      obtain ⟨hq'mem, hq'keep⟩ := List.mem_filter.mp hq'
      obtain ⟨j', hj', hget'⟩ :=
        (mem_withIdxFrom (splitAfterNewline content) 1 q'.1 q'.2).mp hq'mem
      have hjj : j' = j := by omega
      subst hjj
      rw [hget] at hget'
      have hx : q'.2 = q.2 := by
        injection hget' with h
        exact h.symm
      rw [hx] at hq'keep
      simp only [keepLine, Bool.xor_true, Bool.xor_false] at hqkeep hq'keep
      rw [hq'keep] at hqkeep
      simp at hqkeep
    · rintro ⟨h1, h2, h3⟩
      have hjlt : i - 1 < (splitAfterNewline content).length := by omega
      have hget : (splitAfterNewline content).get? (i - 1) =
          some ((splitAfterNewline content).get ⟨i - 1, hjlt⟩) :=
        List.get?_eq_get hjlt
      set x := (splitAfterNewline content).get ⟨i - 1, hjlt⟩ with hxdef
      cases hm : pattern.isMatch x with
      | true =>
        exfalso
        apply h3
        rw [hkept false]
        refine List.mem_map.mpr ⟨(i, x), List.mem_filter.mpr ⟨?_, ?_⟩, rfl⟩
        · exact (mem_withIdxFrom (splitAfterNewline content) 1 i x).mpr
            ⟨i - 1, by omega, hget⟩
        · simp [keepLine, hm]
      | false =>
        rw [hkept true]
        refine List.mem_map.mpr ⟨(i, x), List.mem_filter.mpr ⟨?_, ?_⟩, rfl⟩
        · exact (mem_withIdxFrom (splitAfterNewline content) 1 i x).mpr
            ⟨i - 1, by omega, hget⟩
        · simp [keepLine, hm]

/-- C6: on any input, terminated or not, the scanner pairs the read lines
with the successive counter values 1, 2, ... and reports exactly the kept
ones with those numbers: the result is the filter of the 1-based
enumeration of the lines, and the counter values are exactly 1..N,
incremented once per line read independently of the match outcome. -/
theorem claim_C6 :
    (∀ (content : Str) (pattern : RegexM) (invert_match : Bool)
        (fmt_strategy : RegexM → Str → Str),
      find_lines_and_fmt_with ((splitAfterNewline content).map Except.ok) pattern
          invert_match fmt_strategy =
        Except.ok (((withIdxFrom 1 (splitAfterNewline content)).filter
            (fun q => keepLine pattern invert_match q.2)).map
          (fun q => MatchedLine.mk q.1 (fmt_strategy pattern q.2)))) ∧
    (∀ content : Str,
      (withIdxFrom 1 (splitAfterNewline content)).map Prod.fst =
        List.range' 1 (splitAfterNewline content).length) := by
  constructor
  · intro content pattern invert_match fmt_strategy
    exact findLinesAux_map_ok _ _ _ _ 0
  · intro content
    exact withIdxFrom_map_fst _ 1

/-- C7: word extraction for a literal pattern returns exactly the
non-overlapping occurrences in leftmost-first order: the per-line matcher
wraps this sequence, the sequence is non-empty precisely when the
non-inverted match test succeeds, start offsets are strictly increasing,
every reported word is the exact matched substring at its recorded offset,
and every occurrence in the line is either reported or overlaps a reported
one. -/
theorem claim_C7 (w line : Str) :
    (match_pattern_line line (Pat.lit w) =
      Except.ok (if (findAll w line).isEmpty then none else some (findAll w line))) ∧
    (litIsMatch w line = true ↔ findAll w line ≠ []) ∧
    List.Pairwise (fun a b => a.col < b.col) (findAll w line) ∧
    (∀ mw ∈ findAll w line,
      mw.word = w ∧ mw.col ≤ line.length ∧ litPrefix w (line.drop mw.col) = true) ∧
    (∀ d, d ≤ line.length → litPrefix w (line.drop d) = true →
      ∃ mw ∈ findAll w line, mw.col ≤ d ∧ d < mw.col + max w.length 1) := by
  refine ⟨rfl, (findAll_ne_nil_iff w line).symm, findAllGo_pairwise w line 0 0, ?_, ?_⟩
  · intro mw hmw
    obtain ⟨hw, -, hlen, hpref⟩ := findAllGo_sound w line 0 0 mw hmw
    exact ⟨hw, by omega, by simpa using hpref⟩
  · intro d hd hp
    obtain ⟨mw, hmem, hle, hlt⟩ := findAllGo_complete w line 0 0 d (by omega) hd hp
    exact ⟨mw, hmem, by omega, by omega⟩

theorem claim_C7_wit :
    ∃ mw ∈ findAll ['a'] ['b', 'a'],
      mw.col ≤ 1 ∧ 1 < mw.col + max (['a'] : Str).length 1 :=
  (claim_C7 ['a'] ['b', 'a']).2.2.2.2 1 (by decide) (by decide)

/-- C8: word extraction with a pattern that can match the empty string
terminates by construction (findAllGo is total) and advances past every
zero-length match: on an N character line the empty literal yields exactly
N+1 occurrences at strictly increasing positions, and no literal ever
yields more than N+1 occurrences. -/
theorem claim_C8 (s : Str) :
    (findAll [] s).length = s.length + 1 ∧
    List.Pairwise (fun a b => a.col < b.col) (findAll [] s) ∧
    ∀ w : Str, (findAll w s).length ≤ s.length + 1 :=
  ⟨findAllGo_nil_length s 0, findAllGo_pairwise [] s 0 0,
    fun w => findAllGo_length_le w s 0 0⟩

/-- C10: the per-line matcher recompiles the pattern on every call and
unwraps the result, so it is panic free for every line exactly when the
pattern compiles; the same holds for match_pattern over all contents, a
compiled pattern makes the unwrap branch unreachable on every line, and an
invalid pattern panics at every per-line call (and in match_pattern as
soon as one line exists) instead of returning an InvalidPattern error. -/
theorem claim_C10 (pattern : Pat) :
    ((∀ line : Str, panicked (match_pattern_line line pattern) = false) ↔
      (regexNew pattern).isSome = true) ∧
    ((∀ content : Str, panicked (match_pattern content pattern) = false) ↔
      (regexNew pattern).isSome = true) ∧
    (∀ w : Str, regexNew pattern = some w → ∀ line content : Str,
      match_pattern_line line pattern = Except.ok (matchWordsOpt w line) ∧
      panicked (match_pattern content pattern) = false) ∧
    (regexNew pattern = none →
      (∀ line : Str, match_pattern_line line pattern = Except.error ()) ∧
      (∀ content : Str, rustLines content ≠ [] →
        match_pattern content pattern = Except.error ())) := by
  have hmp_ok : ∀ w : Str, regexNew pattern = some w → ∀ content : Str,
      panicked (match_pattern content pattern) = false := by
    intro w hw content
    have hok := matchLinesAux_ok pattern w hw (withIdxFrom 0 (rustLines content))
    cases hrec : matchLinesAux pattern (withIdxFrom 0 (rustLines content)) with
    | error e =>
      rw [hrec] at hok
      simp [panicked] at hok
    | ok mls => simp [match_pattern, hrec, panicked]
  cases pattern with
  | lit w =>
    refine ⟨⟨fun _ => rfl, fun _ line => rfl⟩,
      ⟨fun _ => rfl, fun _ content => hmp_ok w rfl content⟩, ?_, ?_⟩
    · intro w' hw' line content
      have hww : w' = w := by
        rw [regexNew] at hw'
        injection hw' with h
        exact h.symm
      subst hww
      exact ⟨rfl, hmp_ok w' rfl content⟩
    · intro h
      exact absurd h (by simp [regexNew])
  | lparen =>
    refine ⟨?_, ?_, ?_, ?_⟩
    · constructor
      · intro hall
        have := hall ['x']
        simp [match_pattern_line, regexNew, panicked] at this
      · intro h
        simp [regexNew] at h
    · constructor
      · intro hall
        have := hall ['x']
        rw [show match_pattern ['x'] Pat.lparen = Except.error () from rfl] at this
        simp [panicked] at this
      · intro h
        simp [regexNew] at h
    · intro w hw
      simp [regexNew] at hw
    · intro _
      refine ⟨fun line => rfl, ?_⟩
      intro content hne
      cases hrl : rustLines content with
      | nil => exact absurd hrl hne
      | cons l ls =>
        simp [match_pattern, hrl, withIdxFrom, matchLinesAux, match_pattern_line,
          regexNew]

theorem claim_C10_wit :
    match_pattern_line ['x'] Pat.lparen = Except.error () ∧
    match_pattern ['x'] Pat.lparen = Except.error () := by
  have h := (claim_C10 Pat.lparen).2.2.2 rfl
  exact ⟨h.1 ['x'], h.2 ['x'] (by decide)⟩

/-- C3 counterexample: on the input consisting of the letter a followed by
a line feed, the scanner hands the terminator to the match test (a pattern
matching the line feed accepts the line because of it) and stores the line
with its terminator: the stored line text contains a terminator character,
so terminators are not stripped before matching and storage. -/
theorem claim_C3_cx :
    find_lines_and_fmt_with ((splitAfterNewline ['a', '\n']).map Except.ok) patNl
        false default_fmt_strategy = Except.ok [MatchedLine.mk 1 ['a', '\n']] ∧
    '\n' ∈ (MatchedLine.mk 1 ['a', '\n']).content :=
  ⟨rfl, by decide⟩

/-- C3 (amended): the lib.rs scanner does not strip line terminators: each
stored and matched line text is a whole read_line chunk with its trailing
line feed retained; the chunks still delimit lines correctly, they
reassemble to the input with nothing lost, none is empty (no spurious
empty trailing line when the input ends with a terminator) and a line feed
occurs only at the end of a chunk (both the one and two character
terminators act as boundaries, the final unterminated line is kept); the
matcher.rs path through the lines iterator does strip the terminators. -/
theorem claim_C3_amended (content : Str) (pattern : RegexM) (invert_match : Bool) :
    (splitAfterNewline content).flatten = content ∧
    (∀ c ∈ splitAfterNewline content, c ≠ []) ∧
    (∀ c ∈ splitAfterNewline content, '\n' ∈ c → c.getLast? = some '\n') ∧
    (∀ ms, find_lines_and_fmt_with ((splitAfterNewline content).map Except.ok) pattern
        invert_match default_fmt_strategy = Except.ok ms →
      ∀ ml ∈ ms, ml.content ∈ splitAfterNewline content) ∧
    (∀ l ∈ rustLines content, '\n' ∉ l) := by
  refine ⟨splitAfterNewline_join content, splitAfterNewline_ne_nil content,
    splitAfterNewline_newline_last content, ?_, rustLines_no_newline content⟩
  intro ms hms ml hml
  rw [find_lines_and_fmt_with, findLinesAux_map_ok] at hms
  injection hms with hms
  subst hms
  obtain ⟨q, hq, rfl⟩ := List.mem_map.mp hml
  obtain ⟨hqmem, -⟩ := List.mem_filter.mp hq
  obtain ⟨j, -, hget⟩ :=
    (mem_withIdxFrom (splitAfterNewline content) (0 + 1) q.1 q.2).mp hqmem
  exact List.get?_mem hget

theorem claim_C3_amended_wit :
    (MatchedLine.mk 1 ['a', '\n']).content ∈ splitAfterNewline ['a', '\n'] :=
  (claim_C3_amended ['a', '\n'] patTrue false).2.2.2.1
    [MatchedLine.mk 1 ['a', '\n']] rfl (MatchedLine.mk 1 ['a', '\n']) (by decide)

/-- C2 evaluated at the failing input: on the line ab whose distinct
matched words are a and b, the highlighting loop of the Display impl
emphasizes only the word of its last iteration, whichever iteration order
the set yields, so the occurrence of the other distinct word is rendered
without emphasis; with a single distinct word, all of its occurrences are
emphasized. -/
theorem claim_C2_eval :
    matchLineRender ['a', 'b'] [['a'], ['b']] = 'a' :: red ['b'] ∧
    matchLineRender ['a', 'b'] [['b'], ['a']] = red ['a'] ++ ['b'] ∧
    litIsMatch (red ['a']) (matchLineRender ['a', 'b'] [['a'], ['b']]) = false ∧
    litIsMatch (red ['b']) (matchLineRender ['a', 'b'] [['b'], ['a']]) = false ∧
    matchLineRender ['a', 'b', 'a'] [['a']] = red ['a'] ++ 'b' :: red ['a'] :=
  ⟨rfl, rfl, by decide, by decide, rfl⟩

/-- C1 counterexample: with two sources of which the first fails mid-read
after a successful read of a matching line, run drops the collected match,
produces no output at all, never processes the second source, and returns
the error instead of success. -/
theorem claim_C1_cx :
    runEntries
      [Except.ok (SourceFile.mk ['f', '1']
          (Except.ok [Except.ok ['a', '\n'], Except.error ['b', 'm']])),
        Except.ok (SourceFile.mk ['f', '2'] (Except.ok [Except.ok ['a', '\n']]))]
      patTrue false false = ([], Except.error ['b', 'm']) ∧
    (Except.error ['b', 'm'] : Except Str Unit) ≠ Except.ok () :=
  ⟨rfl, fun h => Except.noConfusion h⟩

/-- C1 (amended): a read error inside the line scanner aborts the whole
run: the collected results of the failing source are dropped, nothing is
printed for it, no further source is processed, and run returns the error
instead of success. -/
theorem claim_C1_amended (name : Str) (reads : List (Except Str Str))
    (rest : List (Except Str SourceFile)) (pattern : RegexM)
    (count invert_match : Bool) (e : Str)
    (h : find_lines_with_highlight_all_matches_red reads pattern invert_match =
      Except.error e) :
    runEntries (Except.ok (SourceFile.mk name (Except.ok reads)) :: rest) pattern
      count invert_match = ([], Except.error e) := by
  simp only [runEntries, runLoop, h]

theorem claim_C1_amended_wit :
    runEntries [Except.ok (SourceFile.mk ['f'] (Except.ok [Except.error ['b']]))]
      patTrue false false = ([], Except.error ['b']) :=
  claim_C1_amended ['f'] [Except.error ['b']] [] patTrue false false ['b'] rfl

/-- C9 counterexample: a run can end unsuccessfully on an error that is
neither an invalid pattern nor missing arguments: a mid-read I/O failure
makes run return that error instead of completing. -/
theorem claim_C9_cx :
    (runEntries [Except.ok (SourceFile.mk ['g', '1']
        (Except.ok [Except.error ['d', 'k']]))] patTrue true false).2 =
      Except.error ['d', 'k'] ∧
    (Except.error ['d', 'k'] : Except Str Unit) ≠ Except.ok () :=
  ⟨rfl, fun h => Except.noConfusion h⟩

/-- C9 (amended): a source-resolution failure contributes exactly one
diagnostic line and processing continues unchanged with the remaining
entries; an open failure likewise; and a run whose entries all fail in one
of these two ways still completes with success, so resolution and open
errors never abort the run; however, besides an invalid pattern and
missing required arguments, a mid-read I/O failure also ends the run with
an error. -/
theorem claim_C9_amended :
    (∀ (msg : Str) (rest : List (Except Str SourceFile)) (pattern : RegexM)
        (count invert_match multi : Bool),
      runLoop (Except.error msg :: rest) pattern count invert_match multi =
        (OutEvent.errOut (msg ++ ['\n']) ::
            (runLoop rest pattern count invert_match multi).1,
          (runLoop rest pattern count invert_match multi).2)) ∧
    (∀ (name err : Str) (rest : List (Except Str SourceFile)) (pattern : RegexM)
        (count invert_match multi : Bool),
      runLoop (Except.ok (SourceFile.mk name (Except.error err)) :: rest) pattern
          count invert_match multi =
        (OutEvent.errOut (name ++ ':' :: ' ' :: err ++ ['\n']) ::
            (runLoop rest pattern count invert_match multi).1,
          (runLoop rest pattern count invert_match multi).2)) ∧
    (∀ (entries : List (Except Str SourceFile)) (pattern : RegexM)
        (count invert_match : Bool),
      (∀ x ∈ entries, entryFails x = true) →
      (runEntries entries pattern count invert_match).2 = Except.ok ()) := by
  refine ⟨fun _ _ _ _ _ _ => rfl, fun _ _ _ _ _ _ _ => rfl, ?_⟩
  intro entries pattern count invert_match hall
  exact runLoop_all_fail pattern count invert_match _ entries hall

theorem claim_C9_amended_wit :
    (runEntries [Except.error ['d'],
        Except.ok (SourceFile.mk ['g'] (Except.error ['o']))] patTrue false false).2 =
      Except.ok () :=
  claim_C9_amended.2.2
    [Except.error ['d'], Except.ok (SourceFile.mk ['g'] (Except.error ['o']))]
    patTrue false false (by decide)

/-- C4 counterexample: the mode switch counts failed specifiers: a run
with exactly one resolved source and count off, but whose entries also
hold one resolution failure, takes the multi branch and prints the source
name as a header, contradicting the claim that with exactly one resolved
source no source-name header is ever printed. -/
theorem claim_C4_cx :
    runEntries [Except.error ['b', 'a', 'd'], pureSource ['h'] ['a', '\n']] patA
        false false =
      ([OutEvent.errOut ['b', 'a', 'd', '\n'], OutEvent.out ['h', '\n'],
          OutEvent.out (fmtMatchedLine (MatchedLine.mk 1 ['a', '\n']))],
        Except.ok ()) ∧
    OutEvent.out ['h', '\n'] ∈ (runEntries [Except.error ['b', 'a', 'd'],
        pureSource ['h'] ['a', '\n']] patA false false).1 :=
  ⟨rfl, by decide⟩

/-- C4 (amended): the output mode is selected once per run from the total
number of find_files entries, failed specifiers counted as well as
resolved sources: a run whose only entry is one readable source prints
with count off only the formatted matched lines and never a source-name
header, and with count on only the bare numeric match count; a run with
two or more entries takes the multi format — with count on one name:count
line per readable source, also when the count is zero, and with count off
a source-name header exactly for the sources with at least one match,
followed by their formatted lines — even when only one of the entries is a
resolved source, the other being a failed specifier that contributes its
diagnostic line. -/
theorem claim_C4 :
    (∀ (name content : Str) (pattern : RegexM) (invert_match : Bool),
      runEntries [pureSource name content] pattern false invert_match =
        ((pureMatches pattern invert_match content).map
            (fun ml => OutEvent.out (fmtMatchedLine ml)),
          Except.ok ())) ∧
    (∀ (name content : Str) (pattern : RegexM) (invert_match : Bool),
      runEntries [pureSource name content] pattern true invert_match =
        ([OutEvent.out (natStr (pureMatches pattern invert_match content).length ++
            ['\n'])],
          Except.ok ())) ∧
    (∀ (srcs : List (Str × Str)) (pattern : RegexM) (invert_match : Bool),
      2 ≤ srcs.length →
      runEntries (srcs.map (fun q => pureSource q.1 q.2)) pattern true invert_match =
        (srcs.map (fun q => OutEvent.out
            (q.1 ++ ':' :: natStr (pureMatches pattern invert_match q.2).length ++
              ['\n'])),
          Except.ok ())) ∧
    (∀ (srcs : List (Str × Str)) (pattern : RegexM) (invert_match : Bool),
      2 ≤ srcs.length →
      runEntries (srcs.map (fun q => pureSource q.1 q.2)) pattern false invert_match =
        ((srcs.map (fun q =>
            (if (pureMatches pattern invert_match q.2).length > 0 then
              [OutEvent.out (q.1 ++ ['\n'])] else []) ++
            (pureMatches pattern invert_match q.2).map
              (fun ml => OutEvent.out (fmtMatchedLine ml)))).flatten,
          Except.ok ())) ∧
    (∀ (msg name content : Str) (pattern : RegexM) (invert_match : Bool),
      runEntries [Except.error msg, pureSource name content] pattern false
          invert_match =
        (OutEvent.errOut (msg ++ ['\n']) ::
            ((if (pureMatches pattern invert_match content).length > 0 then
              [OutEvent.out (name ++ ['\n'])] else []) ++
            (pureMatches pattern invert_match content).map
              (fun ml => OutEvent.out (fmtMatchedLine ml))),
          Except.ok ())) ∧
    (∀ (msg name content : Str) (pattern : RegexM) (invert_match : Bool),
      runEntries [Except.error msg, pureSource name content] pattern true
          invert_match =
        ([OutEvent.errOut (msg ++ ['\n']),
            OutEvent.out (name ++ ':' ::
              natStr (pureMatches pattern invert_match content).length ++ ['\n'])],
          Except.ok ())) := by
  refine ⟨?_, ?_, ?_, ?_, ?_, ?_⟩
  · intro name content pattern invert_match
    have h0 : runEntries [pureSource name content] pattern false invert_match =
        runLoop ([(name, content)].map (fun q => pureSource q.1 q.2)) pattern false
          invert_match false := rfl
    rw [h0, runLoop_pureList]
    simp [perSourceOut]
  · intro name content pattern invert_match
    have h0 : runEntries [pureSource name content] pattern true invert_match =
        runLoop ([(name, content)].map (fun q => pureSource q.1 q.2)) pattern true
          invert_match false := rfl
    rw [h0, runLoop_pureList]
    simp [perSourceOut]
  · intro srcs pattern invert_match h2
    have hm : decide ((srcs.map (fun q => pureSource q.1 q.2)).length > 1) = true := by
      simp only [List.length_map, decide_eq_true_eq]
      omega
    unfold runEntries
    rw [hm, runLoop_pureList]
    have hper : ∀ q : Str × Str, perSourceOut pattern true invert_match true q =
        [OutEvent.out (q.1 ++ ':' ::
          natStr (pureMatches pattern invert_match q.2).length ++ ['\n'])] := by
      intro q
      simp [perSourceOut]
    rw [List.map_congr_left (fun q _ => hper q), flatten_map_singleton]
  · intro srcs pattern invert_match h2
    have hm : decide ((srcs.map (fun q => pureSource q.1 q.2)).length > 1) = true := by
      simp only [List.length_map, decide_eq_true_eq]
      omega
    unfold runEntries
    rw [hm, runLoop_pureList]
    have hper : ∀ q : Str × Str, perSourceOut pattern false invert_match true q =
        (if (pureMatches pattern invert_match q.2).length > 0 then
          [OutEvent.out (q.1 ++ ['\n'])] else []) ++
        (pureMatches pattern invert_match q.2).map
          (fun ml => OutEvent.out (fmtMatchedLine ml)) := by
      intro q
      simp [perSourceOut]
    rw [List.map_congr_left (fun q _ => hper q)]
  · intro msg name content pattern invert_match
    have h0 : runEntries [Except.error msg, pureSource name content] pattern false
        invert_match =
        (OutEvent.errOut (msg ++ ['\n']) ::
            (runLoop ([(name, content)].map (fun q => pureSource q.1 q.2)) pattern
              false invert_match true).1,
          (runLoop ([(name, content)].map (fun q => pureSource q.1 q.2)) pattern
            false invert_match true).2) := rfl
    rw [h0, runLoop_pureList]
    simp [perSourceOut]
  · intro msg name content pattern invert_match
    have h0 : runEntries [Except.error msg, pureSource name content] pattern true
        invert_match =
        (OutEvent.errOut (msg ++ ['\n']) ::
            (runLoop ([(name, content)].map (fun q => pureSource q.1 q.2)) pattern
              true invert_match true).1,
          (runLoop ([(name, content)].map (fun q => pureSource q.1 q.2)) pattern
            true invert_match true).2) := rfl
    rw [h0, runLoop_pureList]
    simp [perSourceOut]

theorem claim_C4_wit :
    runEntries (([(['h'], ['a', '\n']), (['k'], ['b', '\n'])] : List (Str × Str)).map
        (fun q => pureSource q.1 q.2)) patA true false =
      (([(['h'], ['a', '\n']), (['k'], ['b', '\n'])] : List (Str × Str)).map
        (fun q => OutEvent.out
          (q.1 ++ ':' :: natStr (pureMatches patA false q.2).length ++ ['\n'])),
        Except.ok ()) :=
  claim_C4.2.2.1 ([(['h'], ['a', '\n']), (['k'], ['b', '\n'])] : List (Str × Str))
    patA false (by decide)
